import Mathlib

/-!
Shallow embedding of tinydb's secondary-index machinery (`src/index.rs`,
`IndexInner`) and its query evaluator (`src/query_builder.rs`,
`QueryBuilder` / `QueryCondition`).

Modelling conventions:
* `sled::Tree` becomes an association list from byte strings to byte strings,
  together with a set of keys on which a point read (`Tree::get`) fails with a
  storage error.  Writes (`insert` / `remove` / `clear`) are modelled as
  infallible; the claims under study only exercise read-side failures.
* `bincode` serialization of ids and of user data becomes `enc` / `dec`
  (a one-element byte string), and serialization of id lists becomes
  `encodeIds` / `decodeIds` (length-prefixed).  Both decoders are partial, so
  corrupt stored bytes produce `codec` errors exactly as `deserialize` does.
* `Uuid` record ids, index keys `I` and user values `T` are all modelled as
  `Nat`; the key extractor `key_func` is an arbitrary function `Data → Key`.
* The MPSC subscriber channel of an index is the list of not yet consumed
  events, in publish order; `try_recv` pops the head.
* Mutation of `&self` through the sled trees is made explicit: fallible
  operations return `Except DbError IdxState`, and operations whose partial
  effects survive an error (`commit_log`'s destructive drain) additionally
  return the state reached at the point of failure.
-/

deriving instance DecidableEq for Except

namespace TinyDb

/-- Byte strings, the currency of the storage engine. -/
abbrev Bytes := List Nat

/-- Record identifiers (`uuid::Uuid` in the source). -/
abbrev Id := Nat

/-- Index keys (the `I` type parameter, viewed through `AsRef<[u8]>`). -/
abbrev Key := Nat

/-- User values (the `T` type parameter of a table). -/
abbrev Data := Nat

/-- Error taxonomy of `DbResult` as far as the index code can produce it. -/
inductive DbError where
  | storage
  | codec
  | queryBuilder (msg : String)
deriving DecidableEq

/-- A record: stable id plus user data (`record.rs`). -/
structure Rec where
  id : Id
  data : Data
deriving DecidableEq

/-- Change-log events published by the table (`subscriber::Event`). -/
inductive Event where
  | insert (r : Rec)
  | remove (r : Rec)
  | update (id : Id) (oldData : Data) (newData : Data)
deriving DecidableEq

/-- Encoding of a single `Nat` (an id or a user value) as bytes. -/
def enc (n : Nat) : Bytes := [n]

/-- Decoding of a single `Nat`; fails on corrupt bytes. -/
def dec (b : Bytes) : Option Nat :=
  match b with
  | [n] => some n
  | _ => none

/-- Encoding of an id list (`serialize(&vec)` for `Vec<Uuid>`):
length-prefixed. -/
def encodeIds (l : List Id) : Bytes := l.length :: l

/-- Decoding of an id list; fails on corrupt bytes. -/
def decodeIds (b : Bytes) : Option (List Id) :=
  match b with
  | [] => none
  | n :: rest => if rest.length = n then some rest else none

/-- A sled `Tree`: an association list of entries plus the set of keys on
which a point read fails with a storage error. -/
structure Tree where
  entries : List (Bytes × Bytes)
  failGet : List Bytes
deriving DecidableEq

/-- Lookup of the first binding of a key in an association list. -/
def lookupAssoc : List (Bytes × Bytes) → Bytes → Option Bytes
  | [], _ => none
  | (k', v) :: rest, k => if k' = k then some v else lookupAssoc rest k

/-- Replace the first binding of a key, or append a fresh binding. -/
def setAssoc : List (Bytes × Bytes) → Bytes → Bytes → List (Bytes × Bytes)
  | [], k, v => [(k, v)]
  | (k', v') :: rest, k, v =>
    if k' = k then (k, v) :: rest else (k', v') :: setAssoc rest k v

/-- Remove every binding of a key. -/
def removeAssoc : List (Bytes × Bytes) → Bytes → List (Bytes × Bytes)
  | [], _ => []
  | (k', v') :: rest, k =>
    if k' = k then removeAssoc rest k else (k', v') :: removeAssoc rest k

/-- `Tree::get`: fails with a storage error on a bad key, otherwise returns
the stored bytes, if any. -/
def treeGet (t : Tree) (k : Bytes) : Except DbError (Option Bytes) :=
  if k ∈ t.failGet then .error .storage else .ok (lookupAssoc t.entries k)

/-- `Tree::insert`. -/
def treeInsert (t : Tree) (k v : Bytes) : Tree :=
  { t with entries := setAssoc t.entries k v }

/-- `Tree::remove`. -/
def treeRemove (t : Tree) (k : Bytes) : Tree :=
  { t with entries := removeAssoc t.entries k }

/-- `Tree::clear`. -/
def treeClear (t : Tree) : Tree :=
  { t with entries := [] }

/-- The two trees held by an `IndexInner`: the primary table's sub-tree and
the index's own sub-tree.  The key extractor is passed separately, and the
subscriber queue is threaded explicitly where it matters. -/
structure IdxState where
  tableData : Tree
  indexedData : Tree
deriving DecidableEq

/-- `IndexInner::insert` (`index.rs:112-125`): append the record's id to the
bucket of its extracted key, creating the bucket if absent. -/
def insert (kf : Data → Key) (s : IdxState) (r : Rec) : Except DbError IdxState :=
  match treeGet s.indexedData (enc (kf r.data)) with
  | .error e => .error e
  | .ok (some bytes) =>
    match decodeIds bytes with
    | none => .error .codec
    | some vec =>
      .ok { s with indexedData := treeInsert s.indexedData (enc (kf r.data)) (encodeIds (vec ++ [r.id])) }
  | .ok none =>
    .ok { s with indexedData := treeInsert s.indexedData (enc (kf r.data)) (encodeIds [r.id]) }

/-- First-occurrence removal, mirroring
`index_values.iter().position(|id| *id == record.id)` followed by
`index_values.remove(pos)`: `none` when the id is absent. -/
def removeFirst (a : Id) : List Id → Option (List Id)
  | [] => none
  | x :: rest => if x = a then some rest else (removeFirst a rest).map (x :: ·)

/-- `IndexInner::delete` (`index.rs:128-148`): if the bucket of the record's
extracted key exists and holds fewer than two ids, the whole bucket is
removed; otherwise the first occurrence of the record's id is removed in
place, and an absent id is ignored. -/
def delete (kf : Data → Key) (s : IdxState) (r : Rec) : Except DbError IdxState :=
  match treeGet s.indexedData (enc (kf r.data)) with
  | .error e => .error e
  | .ok none => .ok s
  | .ok (some bytes) =>
    match decodeIds bytes with
    | none => .error .codec
    | some vals =>
      if vals.length < 2 then
        .ok { s with indexedData := treeRemove s.indexedData (enc (kf r.data)) }
      else
        match removeFirst r.id vals with
        | some vals' =>
          .ok { s with indexedData := treeInsert s.indexedData (enc (kf r.data)) (encodeIds vals') }
        | none => .ok s

/-- Application of one drained event (`commit_log`'s match arms,
`index.rs:94-105`).  The returned state keeps any partial effect reached
before a failure: an `Update` whose `delete` half succeeded but whose
`insert` half failed leaves the `delete` applied. -/
def applyEventSt (kf : Data → Key) (s : IdxState) : Event → IdxState × Option DbError
  | .insert r =>
    match insert kf s r with
    | .ok s' => (s', none)
    | .error e => (s, some e)
  | .remove r =>
    match delete kf s r with
    | .ok s' => (s', none)
    | .error e => (s, some e)
  | .update i oldD newD =>
    match delete kf s ⟨i, oldD⟩ with
    | .error e => (s, some e)
    | .ok s1 =>
      match insert kf s1 ⟨i, newD⟩ with
      | .error e => (s1, some e)
      | .ok s2 => (s2, none)

/-- `IndexInner::commit_log` (`index.rs:91-109`): destructively drain the
subscriber channel, applying each event in publish order.  Returns the state
reached, the events still queued, and the first error, if any; the failing
event has already been popped when the error surfaces. -/
def commitLog (kf : Data → Key) (s : IdxState) :
    List Event → IdxState × List Event × Option DbError
  | [] => (s, [], none)
  | e :: rest =>
    match applyEventSt kf s e with
    | (s1, some err) => (s1, rest, some err)
    | (s1, none) => commitLog kf s1 rest

/-- Hydration loop of `IndexInner::select` (`index.rs:178-187`): read each id
back from the primary table, skipping ids the table no longer has. -/
def hydrate (t : Tree) : List Id → Except DbError (List Rec)
  | [] => .ok []
  | uuid :: rest =>
    match treeGet t (enc uuid) with
    | .error e => .error e
    | .ok none => hydrate t rest
    | .ok (some bytes) =>
      match dec bytes with
      | none => .error .codec
      | some d =>
        match hydrate t rest with
        | .error e => .error e
        | .ok l => .ok (⟨uuid, d⟩ :: l)

/-- `IndexInner::select` (`index.rs:172-193`): drain the log, then look the
key up in the index sub-tree.  The source matches the bucket read with
`if let Ok(Some(bytes)) = self.indexed_data.get(query)`, so both a missing
bucket and a *failing* bucket read fall through to `Vec::new()`. -/
def select (kf : Data → Key) (s : IdxState) (q : List Event) (query : Key) :
    (IdxState × List Event) × Except DbError (List Rec) :=
  match commitLog kf s q with
  | (s1, rest, some e) => ((s1, rest), .error e)
  | (s1, rest, none) =>
    match treeGet s1.indexedData (enc query) with
    | .error _ => ((s1, rest), .ok [])
    | .ok none => ((s1, rest), .ok [])
    | .ok (some bytes) =>
      match decodeIds bytes with
      | none => ((s1, rest), .error .codec)
      | some uuids => ((s1, rest), hydrate s1.tableData uuids)

/-- Iteration body of `IndexInner::sync` (`index.rs:78-86`): for each key of
the primary sub-tree, re-read the row, decode id and data, and insert the
record into the index. -/
def syncAux (kf : Data → Key) (s : IdxState) :
    List (Bytes × Bytes) → Except DbError IdxState
  | [] => .ok s
  | (k, _) :: rest =>
    match treeGet s.tableData k with
    | .error e => .error e
    | .ok none => syncAux kf s rest
    | .ok (some dataBytes) =>
      match dec k with
      | none => .error .codec
      | some rid =>
        match dec dataBytes with
        | none => .error .codec
        | some rdata =>
          match insert kf s ⟨rid, rdata⟩ with
          | .error e => .error e
          | .ok s1 => syncAux kf s1 rest

/-- `IndexInner::sync` (`index.rs:76-89`): clear the index sub-tree and
rebuild it by iterating the primary table.  The subscriber queue is not
touched. -/
def sync (kf : Data → Key) (s : IdxState) : Except DbError IdxState :=
  syncAux kf { s with indexedData := treeClear s.indexedData } s.tableData.entries

/-! Query evaluator (`src/query_builder.rs`).  A `By` leaf pairs a
type-erased index handle with a boxed key and evaluates through
`index.search(value)`; the condition algebra never inspects the leaf beyond
that call, so the embedding carries the outcome of the search directly in
the leaf. -/

/-- `QueryCondition`: `By` leaves (carrying the result their `search` call
produces), conjunction and disjunction. -/
inductive Cond where
  | By (res : Except DbError (List Rec))
  | and (l r : Cond)
  | or (l r : Cond)

/-- The `retain` walk of the `Or` arm (`query_builder.rs:129-137`): drop any
record whose id was already seen, accumulating seen ids. -/
def dedupAux (seen : List Id) : List Rec → List Rec
  | [] => []
  | x :: rest =>
    if x.id ∈ seen then dedupAux seen rest else x :: dedupAux (x.id :: seen) rest

/-- Deduplication by id with the seen-list starting empty. -/
def dedupById (l : List Rec) : List Rec := dedupAux [] l

/-- `QueryBuilder::select_recursive` (`query_builder.rs:108-142`). -/
def selectRecursive : Cond → Except DbError (List Rec)
  | .By res => res
  | .and l r =>
    match selectRecursive l with
    | .error e => .error e
    | .ok ll =>
      match selectRecursive r with
      | .error e => .error e
      | .ok rl => .ok (ll.filter (fun x => rl.any (fun y => x.id == y.id)))
  | .or l r =>
    match selectRecursive l with
    | .error e => .error e
    | .ok ll =>
      match selectRecursive r with
      | .error e => .error e
      | .ok rl => .ok (dedupById (ll ++ rl))

/-- A `QueryBuilder`: the captured table (its primary sub-tree) and the
optional condition. -/
structure QB where
  tableSt : Tree
  condition : Option Cond

/-- `QueryBuilder::check_valid` (`query_builder.rs:69-76`). -/
def checkValid (qb : QB) : Except DbError Unit :=
  match qb.condition with
  | some _ => .ok ()
  | none => .error (.queryBuilder "No search condition provided")

/-- `QueryBuilder::select` (`query_builder.rs:78-81`).  The `none` branch
after a passed validity check models the source's `unwrap()` and is
unreachable. -/
def qbSelect (qb : QB) : Except DbError (List Rec) :=
  match checkValid qb with
  | .error e => .error e
  | .ok _ =>
    match qb.condition with
    | some c => selectRecursive c
    | none => .error (.queryBuilder "No search condition provided")

/-- `QueryBuilder::update` (`query_builder.rs:83-91`), parameterized by the
table's `update` operation (`table.rs` is outside the provided sources).
Returns the table state alongside the result so that "the table is left
unchanged" is expressible. -/
def qbUpdate (tu : Tree → List Id → Data → Tree × Except DbError (List Rec))
    (qb : QB) (v : Data) : Tree × Except DbError (List Rec) :=
  match checkValid qb with
  | .error e => (qb.tableSt, .error e)
  | .ok _ =>
    match qb.condition with
    | none => (qb.tableSt, .error (.queryBuilder "No search condition provided"))
    | some c =>
      match selectRecursive c with
      | .error e => (qb.tableSt, .error e)
      | .ok recs => tu qb.tableSt (recs.map Rec.id) v

/-- Accumulation loop of `QueryBuilder::delete` (`query_builder.rs:99-103`):
call the table's `delete` per selected record, keeping the rows actually
removed. -/
def qbDeleteLoop (td : Tree → Id → Tree × Except DbError (Option Rec)) (t : Tree) :
    List Rec → Tree × Except DbError (List Rec)
  | [] => (t, .ok [])
  | x :: rest =>
    match td t x.id with
    | (t1, .error e) => (t1, .error e)
    | (t1, .ok none) => qbDeleteLoop td t1 rest
    | (t1, .ok (some removed)) =>
      match qbDeleteLoop td t1 rest with
      | (t2, .error e) => (t2, .error e)
      | (t2, .ok acc) => (t2, .ok (removed :: acc))

/-- `QueryBuilder::delete` (`query_builder.rs:93-106`), parameterized by the
table's `delete` operation. -/
def qbDelete (td : Tree → Id → Tree × Except DbError (Option Rec)) (qb : QB) :
    Tree × Except DbError (List Rec) :=
  match checkValid qb with
  | .error e => (qb.tableSt, .error e)
  | .ok _ =>
    match qb.condition with
    | none => (qb.tableSt, .error (.queryBuilder "No search condition provided"))
    | some c =>
      match selectRecursive c with
      | .error e => (qb.tableSt, .error e)
      | .ok recs => qbDeleteLoop td qb.tableSt recs

/-- Absence of duplicate ids in a record list. -/
def NodupIds (l : List Rec) : Prop := (l.map Rec.id).Nodup

/-- The spec's standing assumption on condition trees: every successful leaf
result is free of duplicate ids ("duplicates assumed absent from each leaf
result"). -/
def LeafNodup : Cond → Prop
  | .By (.ok l) => NodupIds l
  | .By (.error _) => True
  | .and l r => LeafNodup l ∧ LeafNodup r
  | .or l r => LeafNodup l ∧ LeafNodup r

instance (l : List Rec) : Decidable (NodupIds l) := by
  unfold NodupIds
  infer_instance

/-- Bucket non-emptiness: no value stored in the index sub-tree decodes to
the empty id list. -/
def BucketsNonempty (s : IdxState) : Prop :=
  ∀ p ∈ s.indexedData.entries, decodeIds p.2 ≠ some []

instance (s : IdxState) : Decidable (BucketsNonempty s) := by
  unfold BucketsNonempty
  infer_instance

/-! Concrete fixtures used by counterexamples and witnesses. -/

/-- Identity key extractor. -/
def kf0 : Data → Key := fun d => d

/-- Index state whose sole bucket, at key `0`, holds the single id `5`. -/
def oneIdBucket : IdxState := ⟨⟨[], []⟩, ⟨[(enc 0, encodeIds [5])], []⟩⟩

/-- Index state whose sole bucket, at key `0`, holds the ids `5` and `6`. -/
def twoIdBucket : IdxState := ⟨⟨[], []⟩, ⟨[(enc 0, encodeIds [5, 6])], []⟩⟩

/-- Index state whose bucket read fails with a storage error at key `0`. -/
def failingBucket : IdxState := ⟨⟨[], []⟩, ⟨[(enc 0, encodeIds [5])], [enc 0]⟩⟩

/-- Index state whose sole bucket, at key `0`, holds corrupt bytes. -/
def corruptBucket : IdxState := ⟨⟨[], []⟩, ⟨[(enc 0, [99])], []⟩⟩

/-- Index state with a decodable bucket `[5]` at key `0` but a corrupt
primary row for id `5`. -/
def corruptRow : IdxState := ⟨⟨[(enc 5, [1, 2])], []⟩, ⟨[(enc 0, encodeIds [5])], []⟩⟩

/-- A primary-table row that `hydrate` can process without error: the point
read does not fail, and the stored bytes, if any, decode. -/
def rowClean (t : Tree) (i : Id) : Prop :=
  ¬ enc i ∈ t.failGet ∧
  match lookupAssoc t.entries (enc i) with
  | some b => dec b ≠ none
  | none => True

instance (t : Tree) (i : Id) : Decidable (rowClean t i) := by
  unfold rowClean
  cases hl : lookupAssoc t.entries (enc i) <;> simp only [hl] <;> infer_instance

/-- The record produced for one bucket id: the table row hydrated, or `none`
when the table no longer has the id. -/
def hydrateOne (t : Tree) (i : Id) : Option Rec :=
  match lookupAssoc t.entries (enc i) with
  | some b => (dec b).map (fun d => ⟨i, d⟩)
  | none => none

/-- Fixture for the C3 witness: table has row `5 ↦ 11` only; the index
bucket at key `0` holds ids `5` and `8`; one `Remove` event for id `8` is
buffered. -/
def staleBucket : IdxState :=
  ⟨⟨[(enc 5, enc 11)], []⟩, ⟨[(enc 0, encodeIds [5, 8])], []⟩⟩

/-- Fixture for the C3 witness: `staleBucket` after the buffered `Remove`
event has been applied. -/
def staleBucketDrained : IdxState :=
  ⟨⟨[(enc 5, enc 11)], []⟩, ⟨[(enc 0, encodeIds [5])], []⟩⟩

/-- Fixture for the C4 witness: a single bucket at key `4` holding the
single id `9`. -/
def singletonAtFour : IdxState := ⟨⟨[], []⟩, ⟨[(enc 4, encodeIds [9])], []⟩⟩

/-- Concrete record lists used by the C6 witness. -/
def leftRecs : List Rec := [⟨1, 10⟩, ⟨2, 20⟩]

/-- Concrete record list used by the C6 witness. -/
def rightRecs : List Rec := [⟨2, 99⟩]

/-- Concrete record list used by the C6 witness, disjoint from `leftRecs`. -/
def otherRecs : List Rec := [⟨3, 30⟩]

/-- Fixture for the C7 witness: the state reached from `oneIdBucket` by
inserting record `⟨6, 0⟩` into the bucket at key `0`. -/
def oneIdBucketGrown : IdxState := ⟨⟨[], []⟩, ⟨[(enc 0, encodeIds [5, 6])], []⟩⟩

/-- Fixture for the C10 witness: index state with a corrupt bucket at
key `3`. -/
def corruptAtThree : IdxState := ⟨⟨[], []⟩, ⟨[(enc 3, [99])], []⟩⟩

/-- Fixture for the C10 witness: the state after the first `Insert` event of
the drain has been applied to `corruptAtThree`. -/
def corruptAtThreeAfterPre : IdxState :=
  ⟨⟨[], []⟩, ⟨[(enc 3, [99]), (enc 7, encodeIds [1])], []⟩⟩

/-! Basic lemmas about the storage and codec layer. -/

@[simp]
theorem dec_enc (n : Nat) : dec (enc n) = some n := rfl

@[simp]
theorem decodeIds_encodeIds (l : List Id) : decodeIds (encodeIds l) = some l := by
  simp [decodeIds, encodeIds]

theorem lookup_setAssoc (l : List (Bytes × Bytes)) (k v k2 : Bytes) :
    lookupAssoc (setAssoc l k v) k2 = if k = k2 then some v else lookupAssoc l k2 := by
  induction l with
  | nil => simp [setAssoc, lookupAssoc]
  | cons a rest ih =>
    obtain ⟨ka, va⟩ := a
    by_cases hak : ka = k
    · subst hak
      by_cases hk2 : ka = k2 <;> simp [setAssoc, lookupAssoc, hk2]
    · by_cases hk2 : ka = k2
      · subst hk2
        have : ¬ k = ka := fun h => hak h.symm
        simp [setAssoc, lookupAssoc, hak, this]
      · simp [setAssoc, lookupAssoc, hak, hk2, ih]

theorem lookup_removeAssoc (l : List (Bytes × Bytes)) (k k2 : Bytes) :
    lookupAssoc (removeAssoc l k) k2 = if k = k2 then none else lookupAssoc l k2 := by
  induction l with
  | nil => simp [removeAssoc, lookupAssoc]
  | cons a rest ih =>
    obtain ⟨ka, va⟩ := a
    by_cases hak : ka = k
    · subst hak
      rw [show removeAssoc ((ka, va) :: rest) ka = removeAssoc rest ka from by
        simp [removeAssoc]]
      rw [ih]
      by_cases hk2 : ka = k2 <;> simp [lookupAssoc, hk2]
    · rw [show removeAssoc ((ka, va) :: rest) k = (ka, va) :: removeAssoc rest k from by
        simp [removeAssoc, hak]]
      by_cases hk2 : ka = k2
      · subst hk2
        have hne : ¬ k = ka := fun h => hak h.symm
        simp [lookupAssoc, hne]
      · simp [lookupAssoc, hk2, ih]

theorem mem_setAssoc {p : Bytes × Bytes} {l : List (Bytes × Bytes)} {k v : Bytes}
    (h : p ∈ setAssoc l k v) : p = (k, v) ∨ p ∈ l := by
  induction l with
  | nil =>
    rw [show setAssoc [] k v = [(k, v)] from rfl] at h
    exact Or.inl (by simpa using h)
  | cons a rest ih =>
    obtain ⟨ka, va⟩ := a
    by_cases hak : ka = k
    · subst hak
      rw [show setAssoc ((ka, va) :: rest) ka v = (ka, v) :: rest from by
        simp [setAssoc]] at h
      rcases List.mem_cons.mp h with h1 | h1
      · exact Or.inl h1
      · exact Or.inr (List.mem_cons_of_mem _ h1)
    · rw [show setAssoc ((ka, va) :: rest) k v = (ka, va) :: setAssoc rest k v from by
        simp [setAssoc, hak]] at h
      rcases List.mem_cons.mp h with h1 | h1
      · exact Or.inr (by simp [h1])
      · rcases ih h1 with h2 | h2
        · exact Or.inl h2
        · exact Or.inr (List.mem_cons_of_mem _ h2)

theorem mem_removeAssoc {p : Bytes × Bytes} {l : List (Bytes × Bytes)} {k : Bytes}
    (h : p ∈ removeAssoc l k) : p ∈ l := by
  induction l with
  | nil =>
    rw [show removeAssoc [] k = [] from rfl] at h
    simp at h
  | cons a rest ih =>
    obtain ⟨ka, va⟩ := a
    by_cases hak : ka = k
    · rw [show removeAssoc ((ka, va) :: rest) k = removeAssoc rest k from by
        simp [removeAssoc, hak]] at h
      exact List.mem_cons_of_mem _ (ih h)
    · rw [show removeAssoc ((ka, va) :: rest) k = (ka, va) :: removeAssoc rest k from by
        simp [removeAssoc, hak]] at h
      rcases List.mem_cons.mp h with h1 | h1
      · simp [h1]
      · exact List.mem_cons_of_mem _ (ih h1)

theorem of_treeGet_ok {t : Tree} {k : Bytes} {v : Option Bytes}
    (h : treeGet t k = .ok v) : ¬ k ∈ t.failGet ∧ lookupAssoc t.entries k = v := by
  unfold treeGet at h
  split at h
  · cases h
  · exact ⟨by assumption, by injection h⟩

theorem treeGet_of_not_fail {t : Tree} {k : Bytes} (h : ¬ k ∈ t.failGet) :
    treeGet t k = .ok (lookupAssoc t.entries k) := by
  unfold treeGet
  simp [h]

@[simp]
theorem treeInsert_failGet (t : Tree) (k v : Bytes) :
    (treeInsert t k v).failGet = t.failGet := rfl

@[simp]
theorem treeRemove_failGet (t : Tree) (k : Bytes) :
    (treeRemove t k).failGet = t.failGet := rfl

@[simp]
theorem treeInsert_entries (t : Tree) (k v : Bytes) :
    (treeInsert t k v).entries = setAssoc t.entries k v := rfl

@[simp]
theorem treeRemove_entries (t : Tree) (k : Bytes) :
    (treeRemove t k).entries = removeAssoc t.entries k := rfl

/-! Lemmas about first-occurrence removal. -/

theorem removeFirst_eq_none {a : Id} {l : List Id} :
    removeFirst a l = none ↔ a ∉ l := by
  induction l with
  | nil => simp [removeFirst]
  | cons x rest ih =>
    by_cases hx : x = a
    · subst hx
      simp [removeFirst]
    · have hax : ¬ a = x := fun h => hx h.symm
      rw [show removeFirst a (x :: rest) = (removeFirst a rest).map (x :: ·) from by
        simp [removeFirst, hx]]
      simp [Option.map_eq_none', ih, hax]

theorem removeFirst_count {a : Id} {l l' : List Id}
    (h : removeFirst a l = some l') : l.count a = l'.count a + 1 := by
  induction l generalizing l' with
  | nil => simp [removeFirst] at h
  | cons x rest ih =>
    by_cases hx : x = a
    · subst hx
      rw [show removeFirst x (x :: rest) = some rest from by simp [removeFirst]] at h
      cases h
      simp [List.count_cons_self]
    · rw [show removeFirst a (x :: rest) = (removeFirst a rest).map (x :: ·) from by
        simp [removeFirst, hx]] at h
      rw [Option.map_eq_some'] at h
      obtain ⟨r', hr', rfl⟩ := h
      have hne : a ≠ x := fun h => hx h.symm
      simp [List.count_cons_of_ne hne, ih hr']

theorem removeFirst_length {a : Id} {l l' : List Id}
    (h : removeFirst a l = some l') : l.length = l'.length + 1 := by
  induction l generalizing l' with
  | nil => simp [removeFirst] at h
  | cons x rest ih =>
    by_cases hx : x = a
    · subst hx
      rw [show removeFirst x (x :: rest) = some rest from by simp [removeFirst]] at h
      cases h
      rfl
    · rw [show removeFirst a (x :: rest) = (removeFirst a rest).map (x :: ·) from by
        simp [removeFirst, hx]] at h
      rw [Option.map_eq_some'] at h
      obtain ⟨r', hr', rfl⟩ := h
      simp [ih hr']

/-- Claim C1, counterexample.  The bucket at key `0` exists and holds the
single id `5`; the `Remove` event carries id `7`, which the bucket does not
contain; yet `delete` removes the whole bucket, so the index sub-tree
changes. -/
theorem delete_missing_id_cex :
    lookupAssoc oneIdBucket.indexedData.entries (enc (kf0 0)) = some (encodeIds [5]) ∧
    (7 : Id) ∉ [5] ∧
    delete kf0 oneIdBucket ⟨7, 0⟩ = .ok ⟨⟨[], []⟩, ⟨[], []⟩⟩ ∧
    delete kf0 oneIdBucket ⟨7, 0⟩ ≠ .ok oneIdBucket := by
  decide

/-- Claim C1, amended.  A `Remove` whose bucket exists but does not contain
the event's id is a no-op only when the bucket holds at least two ids; when
the bucket holds fewer than two ids (in particular exactly one other id),
the entire bucket is removed from the index sub-tree. -/
theorem delete_missing_id_amended (kf : Data → Key) (s : IdxState) (r : Rec)
    (bytes : Bytes) (ids : List Id)
    (h1 : treeGet s.indexedData (enc (kf r.data)) = .ok (some bytes))
    (h2 : decodeIds bytes = some ids)
    (h3 : r.id ∉ ids) :
    (2 ≤ ids.length → delete kf s r = .ok s) ∧
    (ids.length < 2 →
      delete kf s r = .ok { s with indexedData := treeRemove s.indexedData (enc (kf r.data)) }) := by
  have hnf : removeFirst r.id ids = none := removeFirst_eq_none.mpr h3
  constructor
  · intro hlen
    simp only [delete, h1, h2, hnf]
    rw [if_neg (by omega)]
  · intro hlen
    simp only [delete, h1, h2]
    rw [if_pos hlen]

/-- Witness for the amended claim C1 at concrete states: a two-id bucket is
left untouched, a one-id bucket is removed wholesale. -/
theorem delete_missing_id_amended_witness :
    delete kf0 twoIdBucket ⟨7, 0⟩ = .ok twoIdBucket ∧
    delete kf0 oneIdBucket ⟨7, 0⟩ =
      .ok { oneIdBucket with indexedData := treeRemove oneIdBucket.indexedData (enc (kf0 0)) } := by
  constructor
  · exact (delete_missing_id_amended kf0 twoIdBucket ⟨7, 0⟩ (encodeIds [5, 6]) [5, 6]
      (by decide) (by decide) (by decide)).1 (by decide)
  · exact (delete_missing_id_amended kf0 oneIdBucket ⟨7, 0⟩ (encodeIds [5]) [5]
      (by decide) (by decide) (by decide)).2 (by decide)

/-- Claim C2, counterexample.  With an empty change log and a storage error
on the bucket read at the queried key, `select` encounters a storage error
yet returns `Ok` with the empty record list. -/
theorem select_swallows_storage_error_cex :
    treeGet failingBucket.indexedData (enc 0) = .error .storage ∧
    select kf0 failingBucket [] 0 = ((failingBucket, []), .ok []) := by
  decide

/-- Claim C2, amended.  Errors raised while draining the log, decoding the
id list, or reading and decoding records from the primary sub-tree are
returned to the caller as `Err`; but a storage error on the index sub-tree's
bucket read itself is swallowed and converted into `Ok` with the empty
list. -/
theorem select_error_paths_amended (kf : Data → Key) (s : IdxState)
    (q : List Event) (key : Key) :
    (∀ s1 rest e, commitLog kf s q = (s1, rest, some e) →
      select kf s q key = ((s1, rest), .error e)) ∧
    (∀ s1, commitLog kf s q = (s1, [], none) →
      treeGet s1.indexedData (enc key) = .error .storage →
      select kf s q key = ((s1, []), .ok [])) ∧
    (∀ s1 bytes, commitLog kf s q = (s1, [], none) →
      treeGet s1.indexedData (enc key) = .ok (some bytes) →
      decodeIds bytes = none →
      select kf s q key = ((s1, []), .error .codec)) ∧
    (∀ s1 bytes ids e, commitLog kf s q = (s1, [], none) →
      treeGet s1.indexedData (enc key) = .ok (some bytes) →
      decodeIds bytes = some ids →
      hydrate s1.tableData ids = .error e →
      select kf s q key = ((s1, []), .error e)) := by
  refine ⟨?_, ?_, ?_, ?_⟩
  · intro s1 rest e hc
    simp only [select, hc]
  · intro s1 hc hg
    simp only [select, hc, hg]
  · intro s1 bytes hc hg hd
    simp only [select, hc, hg, hd]
  · intro s1 bytes ids e hc hg hd hh
    simp only [select, hc, hg, hd, hh]

/-- Witness for the amended claim C2: each of the four paths at a concrete
state. -/
theorem select_error_paths_amended_witness :
    select kf0 corruptBucket [.insert ⟨5, 0⟩] 0 = ((corruptBucket, []), .error .codec) ∧
    select kf0 failingBucket [] 0 = ((failingBucket, []), .ok []) ∧
    select kf0 corruptBucket [] 0 = ((corruptBucket, []), .error .codec) ∧
    select kf0 corruptRow [] 0 = ((corruptRow, []), .error .codec) := by
  refine ⟨?_, ?_, ?_, ?_⟩
  · exact (select_error_paths_amended kf0 corruptBucket [.insert ⟨5, 0⟩] 0).1
      corruptBucket [] .codec (by decide)
  · exact (select_error_paths_amended kf0 failingBucket [] 0).2.1
      failingBucket (by decide) (by decide)
  · exact (select_error_paths_amended kf0 corruptBucket [] 0).2.2.1
      corruptBucket [99] (by decide) (by decide) (by decide)
  · exact (select_error_paths_amended kf0 corruptRow [] 0).2.2.2
      corruptRow (encodeIds [5]) [5] .codec (by decide) (by decide) (by decide) (by decide)

/-- On clean rows, `hydrate` returns, in bucket order, one record per id the
table still has, silently skipping the rest. -/
theorem hydrate_ok (t : Tree) (ids : List Id) (h : ∀ i ∈ ids, rowClean t i) :
    hydrate t ids = .ok (ids.filterMap (hydrateOne t)) := by
  induction ids with
  | nil => rfl
  | cons i rest ih =>
    obtain ⟨hf, hd⟩ := h i (List.mem_cons_self i rest)
    have hrest := ih (fun j hj => h j (List.mem_cons_of_mem _ hj))
    have hget : treeGet t (enc i) = .ok (lookupAssoc t.entries (enc i)) :=
      treeGet_of_not_fail hf
    cases hl : lookupAssoc t.entries (enc i) with
    | none =>
      rw [hl] at hget
      simp only [hydrate, hget, hrest, List.filterMap_cons]
      simp [hydrateOne, hl]
    | some b =>
      rw [hl] at hget
      rw [hl] at hd
      rcases hdec : dec b with _ | d
      · exact absurd hdec hd
      · simp only [hydrate, hget, hdec, hrest, List.filterMap_cons]
        simp [hydrateOne, hl, hdec]

/-- Claim C3.  `select` first drains and applies the buffered events, then
looks the key's bucket up in the drained index sub-tree; a key with no
bucket yields the empty list, and a decodable bucket yields, in bucket
order, one record per id the primary table still has, silently skipping ids
the table no longer has. -/
theorem select_drain_then_hydrate (kf : Data → Key) (s : IdxState)
    (q : List Event) (key : Key) (s1 : IdxState)
    (hcl : commitLog kf s q = (s1, [], none)) :
    select kf s q key = select kf s1 [] key ∧
    (treeGet s1.indexedData (enc key) = .ok none →
      select kf s q key = ((s1, []), .ok [])) ∧
    (∀ bytes ids, treeGet s1.indexedData (enc key) = .ok (some bytes) →
      decodeIds bytes = some ids →
      (∀ i ∈ ids, rowClean s1.tableData i) →
      select kf s q key = ((s1, []), .ok (ids.filterMap (hydrateOne s1.tableData)))) := by
  refine ⟨?_, ?_, ?_⟩
  · simp only [select, hcl, commitLog]
  · intro hg
    simp only [select, hcl, hg]
  · intro bytes ids hg hd hclean
    simp only [select, hcl, hg, hd, hydrate_ok s1.tableData ids hclean]

/-- Witness for claim C3: the drained lookup agrees with select, an absent
bucket yields the empty list, and a bucket id missing from the table is
skipped while present ids hydrate in order. -/
theorem select_drain_then_hydrate_witness :
    select kf0 staleBucket [.remove ⟨8, 0⟩] 0 = select kf0 staleBucketDrained [] 0 ∧
    select kf0 staleBucket [.remove ⟨8, 0⟩] 1 = ((staleBucketDrained, []), .ok []) ∧
    select kf0 staleBucket [.remove ⟨8, 0⟩] 0 = ((staleBucketDrained, []), .ok [⟨5, 11⟩]) := by
  refine ⟨?_, ?_, ?_⟩
  · exact (select_drain_then_hydrate kf0 staleBucket [.remove ⟨8, 0⟩] 0
      staleBucketDrained (by decide)).1
  · exact (select_drain_then_hydrate kf0 staleBucket [.remove ⟨8, 0⟩] 1
      staleBucketDrained (by decide)).2.1 (by decide)
  · exact (select_drain_then_hydrate kf0 staleBucket [.remove ⟨8, 0⟩] 0
      staleBucketDrained (by decide)).2.2 (encodeIds [5]) [5]
      (by decide) (by decide) (by decide)

/-- Claim C4.  Applying an `Update{id, old, new}` event executes
`Remove({id, old})` and then `Insert({id, new})` in that order (the exhibited
`s1` is the state after the `Remove` half alone); when the id appears
exactly once in its bucket and the old and new data extract to the same key,
the drained state keeps the id exactly once in that bucket. -/
theorem update_same_key_id_once (kf : Data → Key) (s : IdxState)
    (i : Id) (oldD newD : Data) (bytes : Bytes) (ids : List Id)
    (hkey : kf oldD = kf newD)
    (h1 : treeGet s.indexedData (enc (kf oldD)) = .ok (some bytes))
    (h2 : decodeIds bytes = some ids)
    (h3 : ids.count i = 1) :
    ∃ s1 s2, delete kf s ⟨i, oldD⟩ = .ok s1 ∧ insert kf s1 ⟨i, newD⟩ = .ok s2 ∧
      applyEventSt kf s (.update i oldD newD) = (s2, none) ∧
      ∃ ids2, treeGet s2.indexedData (enc (kf newD)) = .ok (some (encodeIds ids2)) ∧
        ids2.count i = 1 := by
  obtain ⟨hnf, hlook⟩ := of_treeGet_ok h1
  have hmem : i ∈ ids := by
    have hpos : 0 < ids.count i := by omega
    exact List.count_pos_iff.mp hpos
  by_cases hlen : ids.length < 2
  · have hlen1 : ids.length = 1 := by
      have hcl := List.count_le_length i ids
      omega
    have hids : ids = [i] := by
      obtain ⟨x, hxl⟩ := List.length_eq_one.mp hlen1
      subst hxl
      have hx : x = i := by
        by_cases hxi : x = i
        · exact hxi
        · rw [List.count_singleton'] at h3
          rw [if_neg hxi] at h3
          omega
      rw [hx]
    subst hids
    have hdel : delete kf s ⟨i, oldD⟩ =
        .ok ⟨s.tableData, treeRemove s.indexedData (enc (kf oldD))⟩ := by
      simp only [delete, h1, h2]
      rw [if_pos hlen]
    have hins : insert kf (⟨s.tableData, treeRemove s.indexedData (enc (kf oldD))⟩ : IdxState)
        ⟨i, newD⟩ = .ok ⟨s.tableData,
          treeInsert (treeRemove s.indexedData (enc (kf oldD))) (enc (kf newD))
            (encodeIds [i])⟩ := by
      have hget : treeGet (treeRemove s.indexedData (enc (kf oldD))) (enc (kf newD)) =
          .ok none := by
        rw [← hkey]
        rw [treeGet_of_not_fail (by simpa using hnf)]
        rw [treeRemove_entries, lookup_removeAssoc, if_pos rfl]
      simp only [insert, hget]
    refine ⟨_, _, hdel, hins, ?_, ?_⟩
    · simp only [applyEventSt, hdel, hins]
    · refine ⟨[i], ?_, by simp⟩
      rw [treeGet_of_not_fail (by rw [← hkey]; simpa using hnf)]
      rw [treeInsert_entries, lookup_setAssoc, if_pos rfl]
  · rcases hrf : removeFirst i ids with _ | ids'
    · exact absurd (removeFirst_eq_none.mp hrf) (by simpa using hmem)
    · have hc0 : ids'.count i = 0 := by
        have := removeFirst_count hrf
        omega
      have hdel : delete kf s ⟨i, oldD⟩ =
          .ok ⟨s.tableData, treeInsert s.indexedData (enc (kf oldD)) (encodeIds ids')⟩ := by
        simp only [delete, h1, h2, hrf]
        rw [if_neg hlen]
      have hins : insert kf
          (⟨s.tableData, treeInsert s.indexedData (enc (kf oldD)) (encodeIds ids')⟩ : IdxState)
          ⟨i, newD⟩ = .ok ⟨s.tableData,
            treeInsert (treeInsert s.indexedData (enc (kf oldD)) (encodeIds ids'))
              (enc (kf newD)) (encodeIds (ids' ++ [i]))⟩ := by
        have hget : treeGet (treeInsert s.indexedData (enc (kf oldD)) (encodeIds ids'))
            (enc (kf newD)) = .ok (some (encodeIds ids')) := by
          rw [← hkey]
          rw [treeGet_of_not_fail (by simpa using hnf)]
          rw [treeInsert_entries, lookup_setAssoc, if_pos rfl]
        simp only [insert, hget, decodeIds_encodeIds]
      refine ⟨_, _, hdel, hins, ?_, ?_⟩
      · simp only [applyEventSt, hdel, hins]
      · refine ⟨ids' ++ [i], ?_, by simp [List.count_append, hc0]⟩
        rw [treeGet_of_not_fail (by rw [← hkey]; simpa using hnf)]
        rw [treeInsert_entries, lookup_setAssoc, if_pos rfl]

/-- Witness for claim C4: updating record `9` from data `4` to data `4`
keeps id `9` exactly once in the bucket at key `4`. -/
theorem update_same_key_id_once_witness :
    ∃ s1 s2, delete kf0 singletonAtFour ⟨9, 4⟩ = .ok s1 ∧ insert kf0 s1 ⟨9, 4⟩ = .ok s2 ∧
      applyEventSt kf0 singletonAtFour (.update 9 4 4) = (s2, none) ∧
      ∃ ids2, treeGet s2.indexedData (enc (kf0 4)) = .ok (some (encodeIds ids2)) ∧
        ids2.count 9 = 1 :=
  update_same_key_id_once kf0 singletonAtFour 9 4 4 (encodeIds [9]) [9]
    rfl (by decide) (by decide) (by decide)

/-! Lemmas about the `Or` arm's deduplicating walk. -/

theorem dedupAux_eq_nil (l : List Rec) (seen : List Id)
    (h : ∀ x ∈ l, x.id ∈ seen) : dedupAux seen l = [] := by
  induction l with
  | nil => rfl
  | cons x rest ih =>
    simp only [dedupAux]
    rw [if_pos (h x (List.mem_cons_self x rest))]
    exact ih (fun y hy => h y (List.mem_cons_of_mem _ hy))

theorem dedupAux_nodup (l : List Rec) (seen : List Id) :
    ((dedupAux seen l).map Rec.id).Nodup ∧ ∀ x ∈ dedupAux seen l, x.id ∉ seen := by
  induction l generalizing seen with
  | nil => exact ⟨List.nodup_nil, by simp [dedupAux]⟩
  | cons x rest ih =>
    by_cases hx : x.id ∈ seen
    · simp only [dedupAux, if_pos hx]
      exact ih seen
    · simp only [dedupAux, if_neg hx]
      obtain ⟨ih1, ih2⟩ := ih (x.id :: seen)
      refine ⟨?_, ?_⟩
      · rw [List.map_cons, List.nodup_cons]
        refine ⟨?_, ih1⟩
        intro hmem
        obtain ⟨y, hy, hyid⟩ := List.mem_map.mp hmem
        exact ih2 y hy (by rw [hyid]; exact List.mem_cons_self _ _)
      · intro y hy
        rcases List.mem_cons.mp hy with rfl | hy'
        · exact hx
        · exact fun hc => ih2 y hy' (List.mem_cons_of_mem _ hc)

theorem dedupAux_append_eq (l : List Rec) (seen : List Id) (l2 : List Rec)
    (hnd : (l.map Rec.id).Nodup) (hseen : ∀ x ∈ l, x.id ∉ seen)
    (hl2 : ∀ x ∈ l2, x.id ∈ seen ∨ ∃ y ∈ l, x.id = y.id) :
    dedupAux seen (l ++ l2) = l := by
  induction l generalizing seen with
  | nil =>
    simp only [List.nil_append]
    refine dedupAux_eq_nil l2 seen (fun x hx => ?_)
    rcases hl2 x hx with hin | ⟨y, hy, -⟩
    · exact hin
    · simp at hy
  | cons a t ih =>
    simp only [List.cons_append, dedupAux]
    rw [if_neg (hseen a (List.mem_cons_self a t))]
    rw [List.map_cons, List.nodup_cons] at hnd
    have hpair := hnd
    refine congrArg (a :: ·) (ih (a.id :: seen) hpair.2 ?_ ?_)
    · intro x hx hc
      rcases List.mem_cons.mp hc with hcc | hcc
      · exact hpair.1 (hcc ▸ List.mem_map_of_mem Rec.id hx)
      · exact hseen x (List.mem_cons_of_mem _ hx) hcc
    · intro x hx
      rcases hl2 x hx with hc | ⟨y, hy, hxy⟩
      · exact Or.inl (List.mem_cons_of_mem _ hc)
      · rcases List.mem_cons.mp hy with rfl | hy'
        · exact Or.inl (by rw [hxy]; exact List.mem_cons_self _ _)
        · exact Or.inr ⟨y, hy', hxy⟩

/-- Successful evaluation results carry no duplicate ids provided every leaf
result is duplicate-free (the spec's standing assumption). -/
theorem sel_nodup (c : Cond) (hc : LeafNodup c) :
    ∀ res, selectRecursive c = .ok res → NodupIds res := by
  induction c with
  | By r =>
    intro res hres
    cases r with
    | ok l =>
      have hlr : l = res := by simpa [selectRecursive] using hres
      subst hlr
      exact hc
    | error e => simp [selectRecursive] at hres
  | and l r ihl ihr =>
    intro res hres
    obtain ⟨hcl, hcr⟩ := hc
    rcases hsl : selectRecursive l with e | ll
    · simp only [selectRecursive, hsl] at hres
      exact Except.noConfusion hres
    · rcases hsr : selectRecursive r with e | rl
      · simp only [selectRecursive, hsl, hsr] at hres
        exact Except.noConfusion hres
      · simp only [selectRecursive, hsl, hsr, Except.ok.injEq] at hres
        subst hres
        exact List.Nodup.sublist
          (List.Sublist.map Rec.id (List.filter_sublist ll)) (ihl hcl ll hsl)
  | or l r ihl ihr =>
    intro res hres
    rcases hsl : selectRecursive l with e | ll
    · simp only [selectRecursive, hsl] at hres
      exact Except.noConfusion hres
    · rcases hsr : selectRecursive r with e | rl
      · simp only [selectRecursive, hsl, hsr] at hres
        exact Except.noConfusion hres
      · simp only [selectRecursive, hsl, hsr, Except.ok.injEq] at hres
        subst hres
        exact (dedupAux_nodup (ll ++ rl) []).1

/-- Claim C5.  `Or` returns the left result concatenated with the right
result, with every record whose id was already emitted dropped in one
first-seen-order walk; consequently, under the spec's assumption that leaf
results carry no duplicate ids, `Or(A, A)` returns exactly the records of
`A`, without duplicate ids. -/
theorem or_dedup_and_idempotent (l r a : Cond) (ll rl res : List Rec)
    (hl : selectRecursive l = .ok ll) (hr : selectRecursive r = .ok rl)
    (ha : LeafNodup a) (hres : selectRecursive a = .ok res) :
    selectRecursive (.or l r) = .ok (dedupById (ll ++ rl)) ∧
    selectRecursive (.or a a) = .ok res ∧ NodupIds res := by
  have hnd : NodupIds res := sel_nodup a ha res hres
  refine ⟨?_, ?_, hnd⟩
  · simp only [selectRecursive, hl, hr]
  · simp only [selectRecursive, hres, Except.ok.injEq]
    exact dedupAux_append_eq res [] res hnd (by simp)
      (fun x hx => Or.inr ⟨x, hx, rfl⟩)

/-- Witness for claim C5 at a concrete two-record condition. -/
theorem or_dedup_and_idempotent_witness :
    selectRecursive (.or (.By (.ok [⟨1, 10⟩])) (.By (.ok [⟨2, 20⟩]))) =
      .ok (dedupById ([⟨1, 10⟩] ++ [⟨2, 20⟩])) ∧
    selectRecursive (.or (.By (.ok [⟨1, 10⟩, ⟨2, 20⟩])) (.By (.ok [⟨1, 10⟩, ⟨2, 20⟩]))) =
      .ok [⟨1, 10⟩, ⟨2, 20⟩] ∧ NodupIds [⟨1, 10⟩, ⟨2, 20⟩] :=
  or_dedup_and_idempotent (.By (.ok [⟨1, 10⟩])) (.By (.ok [⟨2, 20⟩]))
    (.By (.ok [⟨1, 10⟩, ⟨2, 20⟩])) [⟨1, 10⟩] [⟨2, 20⟩] [⟨1, 10⟩, ⟨2, 20⟩]
    rfl rfl (by show NodupIds [⟨1, 10⟩, ⟨2, 20⟩]; decide) rfl

/-- Claim C6.  `And` returns exactly the records of the left result whose id
appears in the right result, as a sublist of the left result (left-side
order); disjoint id sets yield the empty list. -/
theorem and_intersection_by_id (l r : Cond) (ll rl : List Rec)
    (hl : selectRecursive l = .ok ll) (hr : selectRecursive r = .ok rl) :
    ∃ res, selectRecursive (.and l r) = .ok res ∧
      res.Sublist ll ∧
      (∀ x, x ∈ res ↔ x ∈ ll ∧ ∃ y ∈ rl, x.id = y.id) ∧
      ((∀ x ∈ ll, ∀ y ∈ rl, x.id ≠ y.id) → res = []) := by
  refine ⟨ll.filter (fun x => rl.any (fun y => x.id == y.id)), ?_,
    List.filter_sublist ll, ?_, ?_⟩
  · simp only [selectRecursive, hl, hr]
  · intro x
    simp [List.mem_filter, List.any_eq_true]
  · intro hdisj
    rw [List.filter_eq_nil_iff]
    intro x hx hany
    rw [List.any_eq_true] at hany
    obtain ⟨y, hy, hbeq⟩ := hany
    exact hdisj x hx y hy (beq_iff_eq.mp hbeq)

/-- Witness for claim C6: one overlapping pair and one disjoint pair of
concrete leaf results. -/
theorem and_intersection_by_id_witness :
    (∃ res, selectRecursive (.and (.By (.ok leftRecs)) (.By (.ok rightRecs))) =
        .ok res ∧
      res.Sublist leftRecs ∧
      (∀ x, x ∈ res ↔ x ∈ leftRecs ∧ ∃ y ∈ rightRecs, x.id = y.id) ∧
      ((∀ x ∈ leftRecs, ∀ y ∈ rightRecs, x.id ≠ y.id) → res = [])) ∧
    (∃ res, selectRecursive (.and (.By (.ok leftRecs)) (.By (.ok otherRecs))) =
        .ok res ∧
      res.Sublist leftRecs ∧
      (∀ x, x ∈ res ↔ x ∈ leftRecs ∧ ∃ y ∈ otherRecs, x.id = y.id) ∧
      ((∀ x ∈ leftRecs, ∀ y ∈ otherRecs, x.id ≠ y.id) → res = [])) :=
  ⟨and_intersection_by_id (.By (.ok leftRecs)) (.By (.ok rightRecs))
      leftRecs rightRecs rfl rfl,
    and_intersection_by_id (.By (.ok leftRecs)) (.By (.ok otherRecs))
      leftRecs otherRecs rfl rfl⟩

/-! Preservation of bucket non-emptiness. -/

theorem insert_preserves_nonempty (kf : Data → Key) (s : IdxState) (r : Rec)
    (s' : IdxState) (hinv : BucketsNonempty s) (h : insert kf s r = .ok s') :
    BucketsNonempty s' := by
  rcases hg : treeGet s.indexedData (enc (kf r.data)) with e | ob
  · simp only [insert, hg] at h
    exact Except.noConfusion h
  · cases ob with
    | none =>
      simp only [insert, hg, Except.ok.injEq] at h
      subst h
      intro p hp
      rcases mem_setAssoc hp with rfl | hmem
      · simp
      · exact hinv p hmem
    | some bytes =>
      rcases hd : decodeIds bytes with _ | vec
      · simp only [insert, hg, hd] at h
        exact Except.noConfusion h
      · simp only [insert, hg, hd, Except.ok.injEq] at h
        subst h
        intro p hp
        rcases mem_setAssoc hp with rfl | hmem
        · simp
        · exact hinv p hmem

theorem delete_preserves_nonempty (kf : Data → Key) (s : IdxState) (r : Rec)
    (s' : IdxState) (hinv : BucketsNonempty s) (h : delete kf s r = .ok s') :
    BucketsNonempty s' := by
  rcases hg : treeGet s.indexedData (enc (kf r.data)) with e | ob
  · simp only [delete, hg] at h
    exact Except.noConfusion h
  · cases ob with
    | none =>
      simp only [delete, hg, Except.ok.injEq] at h
      subst h
      exact hinv
    | some bytes =>
      rcases hd : decodeIds bytes with _ | vals
      · simp only [delete, hg, hd] at h
        exact Except.noConfusion h
      · by_cases hlen : vals.length < 2
        · simp only [delete, hg, hd, if_pos hlen, Except.ok.injEq] at h
          subst h
          intro p hp
          exact hinv p (mem_removeAssoc hp)
        · rcases hrf : removeFirst r.id vals with _ | vals'
          · simp only [delete, hg, hd, if_neg hlen, hrf, Except.ok.injEq] at h
            subst h
            exact hinv
          · simp only [delete, hg, hd, if_neg hlen, hrf, Except.ok.injEq] at h
            subst h
            intro p hp
            rcases mem_setAssoc hp with rfl | hmem
            · have hlv := removeFirst_length hrf
              simp only [decodeIds_encodeIds, ne_eq, Option.some.injEq]
              intro hnil
              subst hnil
              simp at hlv
              omega
            · exact hinv p hmem

theorem applyEventSt_preserves_nonempty (kf : Data → Key) (s : IdxState)
    (e : Event) (s' : IdxState) (err : Option DbError)
    (hinv : BucketsNonempty s) (h : applyEventSt kf s e = (s', err)) :
    BucketsNonempty s' := by
  cases e with
  | insert r =>
    rcases hi : insert kf s r with er | s1
    · simp only [applyEventSt, hi] at h
      have hs : s = s' := congrArg Prod.fst h
      subst hs
      exact hinv
    · simp only [applyEventSt, hi] at h
      have hs : s1 = s' := congrArg Prod.fst h
      subst hs
      exact insert_preserves_nonempty kf s r s1 hinv hi
  | remove r =>
    rcases hi : delete kf s r with er | s1
    · simp only [applyEventSt, hi] at h
      have hs : s = s' := congrArg Prod.fst h
      subst hs
      exact hinv
    · simp only [applyEventSt, hi] at h
      have hs : s1 = s' := congrArg Prod.fst h
      subst hs
      exact delete_preserves_nonempty kf s r s1 hinv hi
  | update i oldD newD =>
    rcases hdel : delete kf s ⟨i, oldD⟩ with er | s1
    · simp only [applyEventSt, hdel] at h
      have hs : s = s' := congrArg Prod.fst h
      subst hs
      exact hinv
    · have hs1 : BucketsNonempty s1 := delete_preserves_nonempty kf s _ s1 hinv hdel
      rcases hins : insert kf s1 ⟨i, newD⟩ with er | s2
      · simp only [applyEventSt, hdel, hins] at h
        have hs : s1 = s' := congrArg Prod.fst h
        subst hs
        exact hs1
      · simp only [applyEventSt, hdel, hins] at h
        have hs : s2 = s' := congrArg Prod.fst h
        subst hs
        exact insert_preserves_nonempty kf s1 _ s2 hs1 hins

theorem syncAux_preserves_nonempty (kf : Data → Key) :
    ∀ (rows : List (Bytes × Bytes)) (s s' : IdxState),
      BucketsNonempty s → syncAux kf s rows = .ok s' → BucketsNonempty s' := by
  intro rows
  induction rows with
  | nil =>
    intro s s' hinv h
    simp only [syncAux, Except.ok.injEq] at h
    subst h
    exact hinv
  | cons row rest ih =>
    intro s s' hinv h
    obtain ⟨k, v⟩ := row
    rcases hg : treeGet s.tableData k with e | ob
    · simp only [syncAux, hg] at h
      exact Except.noConfusion h
    · cases ob with
      | none =>
        simp only [syncAux, hg] at h
        exact ih s s' hinv h
      | some dataBytes =>
        rcases hk : dec k with _ | rid
        · simp only [syncAux, hg, hk] at h
          exact Except.noConfusion h
        · rcases hv : dec dataBytes with _ | rdata
          · simp only [syncAux, hg, hk, hv] at h
            exact Except.noConfusion h
          · rcases hi : insert kf s ⟨rid, rdata⟩ with er | s1
            · simp only [syncAux, hg, hk, hv, hi] at h
              exact Except.noConfusion h
            · simp only [syncAux, hg, hk, hv, hi] at h
              exact ih s1 s' (insert_preserves_nonempty kf s _ s1 hinv hi) h

theorem sync_establishes_nonempty (kf : Data → Key) (s s' : IdxState)
    (h : sync kf s = .ok s') : BucketsNonempty s' := by
  refine syncAux_preserves_nonempty kf s.tableData.entries
    { s with indexedData := treeClear s.indexedData } s' ?_ h
  intro p hp
  simp [treeClear] at hp

/-- Claim C7.  Every index operation preserves (and `sync` re-establishes)
the invariant that no key of the index sub-tree stores an empty id list:
`insert` never writes an empty list, and deleting from a bucket that would
fall below one id removes the key itself. -/
theorem buckets_nonempty_invariant (kf : Data → Key) :
    (∀ s r s', BucketsNonempty s → insert kf s r = .ok s' → BucketsNonempty s') ∧
    (∀ s r s', BucketsNonempty s → delete kf s r = .ok s' → BucketsNonempty s') ∧
    (∀ s e s' err, BucketsNonempty s → applyEventSt kf s e = (s', err) →
      BucketsNonempty s') ∧
    (∀ s s', sync kf s = .ok s' → BucketsNonempty s') :=
  ⟨fun s r s' => insert_preserves_nonempty kf s r s',
    fun s r s' => delete_preserves_nonempty kf s r s',
    fun s e s' err => applyEventSt_preserves_nonempty kf s e s' err,
    fun s s' => sync_establishes_nonempty kf s s'⟩

/-- Witness for claim C7: the four preservation statements applied at
concrete states. -/
theorem buckets_nonempty_invariant_witness :
    BucketsNonempty oneIdBucketGrown ∧ BucketsNonempty twoIdBucket ∧
    BucketsNonempty oneIdBucketGrown ∧
    BucketsNonempty (⟨⟨[(enc 4, enc 9)], []⟩, ⟨[(enc 9, encodeIds [4])], []⟩⟩ : IdxState) := by
  refine ⟨?_, ?_, ?_, ?_⟩
  · exact (buckets_nonempty_invariant kf0).1 oneIdBucket ⟨6, 0⟩ oneIdBucketGrown
      (by decide) (by decide)
  · exact (buckets_nonempty_invariant kf0).2.1 twoIdBucket ⟨7, 0⟩ twoIdBucket
      (by decide) (by decide)
  · exact (buckets_nonempty_invariant kf0).2.2.1 oneIdBucket (.insert ⟨6, 0⟩)
      oneIdBucketGrown none (by decide) (by decide)
  · exact (buckets_nonempty_invariant kf0).2.2.2
      ⟨⟨[(enc 4, enc 9)], []⟩, ⟨[(enc 1, encodeIds [])], []⟩⟩
      ⟨⟨[(enc 4, enc 9)], []⟩, ⟨[(enc 9, encodeIds [4])], []⟩⟩ (by decide)

/-- Claim C8.  On a builder with no condition, `select`, `update` and
`delete` all fail with the `QueryBuilder` error carrying the message
"No search condition provided", and the table operations are never invoked:
whatever the table's `update` and `delete` do, the table state is returned
unchanged. -/
theorem no_condition_error
    (tu : Tree → List Id → Data → Tree × Except DbError (List Rec))
    (td : Tree → Id → Tree × Except DbError (Option Rec))
    (t : Tree) (v : Data) :
    qbSelect ⟨t, none⟩ = .error (.queryBuilder "No search condition provided") ∧
    qbUpdate tu ⟨t, none⟩ v = (t, .error (.queryBuilder "No search condition provided")) ∧
    qbDelete td ⟨t, none⟩ = (t, .error (.queryBuilder "No search condition provided")) :=
  ⟨rfl, rfl, rfl⟩

/-- Claim C9.  `sync` rebuilds the index sub-tree from the primary table
without touching the subscriber queue; with an `Insert` event for the single
table record still buffered, the next `select` of that record's key applies
the buffered event on top of the rebuilt bucket, so the id lands twice in
the bucket and the record is returned twice. -/
theorem sync_then_buffered_insert_duplicates (kf : Data → Key) (i d : Nat)
    (es : List (Bytes × Bytes)) :
    sync kf ⟨⟨[(enc i, enc d)], []⟩, ⟨es, []⟩⟩ =
      .ok ⟨⟨[(enc i, enc d)], []⟩, ⟨[(enc (kf d), encodeIds [i])], []⟩⟩ ∧
    select kf ⟨⟨[(enc i, enc d)], []⟩, ⟨[(enc (kf d), encodeIds [i])], []⟩⟩
        [.insert ⟨i, d⟩] (kf d) =
      ((⟨⟨[(enc i, enc d)], []⟩, ⟨[(enc (kf d), encodeIds [i, i])], []⟩⟩, []),
        .ok [⟨i, d⟩, ⟨i, d⟩]) ∧
    lookupAssoc [(enc (kf d), encodeIds [i, i])] (enc (kf d)) =
      some (encodeIds [i, i]) := by
  refine ⟨?_, ?_, ?_⟩
  · simp [sync, syncAux, treeClear, treeGet, treeInsert, lookupAssoc, setAssoc,
      insert, dec, enc, encodeIds, decodeIds]
  · simp [select, commitLog, applyEventSt, insert, treeGet, treeInsert,
      lookupAssoc, setAssoc, hydrate, dec, enc, encodeIds, decodeIds]
  · simp [lookupAssoc]

/-- Claim C10.  The drain is not atomic under failure: if draining a prefix
of the queue succeeds and applying the next event fails, `commit_log` stops
with the state reached at the failure (the prefix's effects applied, plus
any partial effect of the failing event), the failing event already popped
from the channel, and exactly the events published after it still queued. -/
theorem commitLog_partial_failure (kf : Data → Key) (s : IdxState)
    (pre : List Event) (bad : Event) (post : List Event)
    (sg sb : IdxState) (err : DbError)
    (h1 : commitLog kf s pre = (sg, [], none))
    (h2 : applyEventSt kf sg bad = (sb, some err)) :
    commitLog kf s (pre ++ bad :: post) = (sb, post, some err) := by
  induction pre generalizing s with
  | nil =>
    simp only [commitLog] at h1
    obtain ⟨rfl, -⟩ : s = sg ∧ True := by
      refine ⟨?_, trivial⟩
      exact congrArg Prod.fst h1
    simp only [List.nil_append, commitLog, h2]
  | cons e t ih =>
    simp only [commitLog] at h1 ⊢
    rcases happ : applyEventSt kf s e with ⟨s1, oerr⟩
    rw [happ] at h1
    cases oerr with
    | some er =>
      exfalso
      have h3 : (some er : Option DbError) = none := by
        have h4 := congrArg (fun x => x.2.2) h1
        simp at h4
      cases h3
    | none =>
      simpa using ih s1 h1

/-- Witness for claim C10: a drain of three events whose middle event hits
the corrupt bucket keeps the first event's effect, consumes the failing
event, and leaves the third event queued. -/
theorem commitLog_partial_failure_witness :
    commitLog kf0 corruptAtThree
        ([.insert ⟨1, 7⟩] ++ .insert ⟨5, 3⟩ :: [.insert ⟨9, 7⟩]) =
      (corruptAtThreeAfterPre, [.insert ⟨9, 7⟩], some .codec) :=
  commitLog_partial_failure kf0 corruptAtThree [.insert ⟨1, 7⟩] (.insert ⟨5, 3⟩)
    [.insert ⟨9, 7⟩] corruptAtThreeAfterPre corruptAtThreeAfterPre .codec
    (by decide) (by decide)

end TinyDb
